import Mathlib

/-!
Verification development for the isolation game-playing agent
(`game_agent.py`): evaluation functions (`attacking_score`,
`deeper_score`, `custom_score`) and the `CustomPlayer` agent
(`get_move`, `minimax`, `alphabeta`), shallowly embedded in Lean.

Conventions of the embedding:

* A move is a pair of integers; the sentinel "no move" is `(-1, -1)`.
* Python float scores are modelled as extended rationals
  `Score := WithBot (WithTop Rat)`; `float("-inf")` is `⊥`,
  `float("inf")` is `⊤` (the heuristics only ever produce rationals
  and the two infinities, and no NaN can arise in this code).
* The game tree seen by the search (`isolation.Board`) is modelled by
  the inductive `Game`: each node records the board's utility for the
  searching agent (`game.utility(self)`), the recorded last move of
  the inactive player (`game.__last_player_move__[game.inactive_player]`),
  and the association list of legal moves with the boards they forecast
  to (`game.get_legal_moves()` paired with `game.forecast_move(move)`,
  in the board's canonical enumeration order).
* The timer of `CustomPlayer` is modelled by explicit state passing: a
  counter records how many times `self.time_left()` has been called so
  far, and the ambient time function `tl : Nat → Rat` gives the value
  returned by the k-th call.  `Timeout` and the `IndexError` that
  `random.choice`/`[0]` can raise are the two constructors of `Err`,
  and fallible code returns `Except Err`.
* The iterative-deepening loop of `get_move` is a genuine `while True`
  that exits only through `Timeout`; it is embedded with an explicit
  fuel argument, the result `none` meaning the loop was still running
  after `fuel` rounds.
-/

/-- A move: a `(row, col)` pair of integers. -/
abbrev Move : Type := Int × Int

/-- Extended-rational scores standing for the Python floats used by the
agent: rationals plus `float("-inf") = ⊥` and `float("inf") = ⊤`. -/
abbrev Score : Type := WithBot (WithTop ℚ)

/-- Embed a rational into `Score`. -/
def Score.ofQ (q : ℚ) : Score := ((q : WithTop ℚ) : WithBot (WithTop ℚ))

/-- The two exceptions that can escape the search code: the agent's own
`Timeout`, and the `IndexError` raised by indexing an empty list. -/
inductive Err : Type where
  | timeout : Err
  | indexError : Err
deriving DecidableEq, Repr

/-- The game tree as seen through the `isolation.Board` interface used by
`CustomPlayer`: `util` is `game.utility(self)` (the searching agent is
fixed for a whole search), `lastInactive` is
`game.__last_player_move__[game.inactive_player]`, and `children` lists
`game.get_legal_moves()` in canonical order, each paired with the board
`game.forecast_move(move)` it leads to. -/
inductive Game : Type where
  | node (util : Score) (lastInactive : Move) (children : List (Move × Game))

/-- The board's utility for the searching agent (`game.utility(self)`). -/
def Game.util : Game → Score
  | .node u _ _ => u

/-- The recorded last move of the inactive player. -/
def Game.lastInactive : Game → Move
  | .node _ m _ => m

/-- Legal moves of the active player, each paired with the forecast board. -/
def Game.children : Game → List (Move × Game)
  | .node _ _ cs => cs

/-- `game.get_legal_moves()`: the legal moves in canonical order. -/
def Game.legalMovesList (g : Game) : List Move := g.children.map Prod.fst

/-- The pure maximizing-layer loop of `CustomPlayer.minimax` (the
`for move in game.get_legal_moves()` loop with `score > best_score`),
with the recursive call abstracted as `f`; `none` propagates a crash. -/
def mmMaxLoop (f : Game → Bool → Option (Score × Move)) :
    List (Move × Game) → Score → Move → Option (Score × Move)
  | [], best, bm => some (best, bm)
  | (mv, ch) :: rest, best, bm =>
    match f ch false with
    | none => none
    | some (s, _) =>
      if best < s then mmMaxLoop f rest s mv else mmMaxLoop f rest best bm

/-- The pure minimizing-layer loop of `CustomPlayer.minimax`
(`score < best_score`). -/
def mmMinLoop (f : Game → Bool → Option (Score × Move)) :
    List (Move × Game) → Score → Move → Option (Score × Move)
  | [], best, bm => some (best, bm)
  | (mv, ch) :: rest, best, bm =>
    match f ch true with
    | none => none
    | some (s, _) =>
      if s < best then mmMinLoop f rest s mv else mmMinLoop f rest best bm

/-- `CustomPlayer.minimax` under an unbounded time budget (the
`time_left() < TIMER_THRESHOLD` check never fires and is elided);
`ev` is the configured `self.score` evaluator.  `none` models the
`IndexError` of `game.get_legal_moves()[0]` on a non-terminal node
with no legal moves. -/
def minimax (ev : Game → Score) : Nat → Game → Bool → Option (Score × Move)
  | 0, g, _ => some (ev g, g.lastInactive)
  | d + 1, g, maximizing_player =>
    if g.util ≠ Score.ofQ 0 then some (ev g, g.lastInactive)
    else
      match g.children with
      | [] => none
      | c :: cs =>
        if maximizing_player then
          mmMaxLoop (fun ch mp => minimax ev d ch mp) (c :: cs) ⊥ c.1
        else
          mmMinLoop (fun ch mp => minimax ev d ch mp) (c :: cs) ⊤ c.1

/-- The pure maximizing-layer loop of `CustomPlayer.alphabeta`: update
on `score > best_score`, return on `best_score >= beta`, then
`alpha = max([alpha, best_score])`. -/
def abMaxLoop (f : Game → Score → Score → Bool → Option (Score × Move)) :
    List (Move × Game) → Score → Move → Score → Score → Option (Score × Move)
  | [], best, bm, _, _ => some (best, bm)
  | (mv, ch) :: rest, best, bm, alpha, beta =>
    match f ch alpha beta false with
    | none => none
    | some (s, _) =>
      let best' := if best < s then s else best
      let bm' := if best < s then mv else bm
      if beta ≤ best' then some (best', bm')
      else abMaxLoop f rest best' bm' (max alpha best') beta

/-- The pure minimizing-layer loop of `CustomPlayer.alphabeta`: update
on `score < best_score`, return on `best_score <= alpha`, then
`beta = min([beta, best_score])`. -/
def abMinLoop (f : Game → Score → Score → Bool → Option (Score × Move)) :
    List (Move × Game) → Score → Move → Score → Score → Option (Score × Move)
  | [], best, bm, _, _ => some (best, bm)
  | (mv, ch) :: rest, best, bm, alpha, beta =>
    match f ch alpha beta true with
    | none => none
    | some (s, _) =>
      let best' := if s < best then s else best
      let bm' := if s < best then mv else bm
      if best' ≤ alpha then some (best', bm')
      else abMinLoop f rest best' bm' alpha (min beta best')

/-- `CustomPlayer.alphabeta` under an unbounded time budget (timer check
elided, exactly as in `minimax`). -/
def alphabeta (ev : Game → Score) :
    Nat → Game → Score → Score → Bool → Option (Score × Move)
  | 0, g, _, _, _ => some (ev g, g.lastInactive)
  | d + 1, g, alpha, beta, maximizing_player =>
    if g.util ≠ Score.ofQ 0 then some (ev g, g.lastInactive)
    else
      match g.children with
      | [] => none
      | c :: cs =>
        if maximizing_player then
          abMaxLoop (fun ch a b mp => alphabeta ev d ch a b mp) (c :: cs) ⊥ c.1 alpha beta
        else
          abMinLoop (fun ch a b mp => alphabeta ev d ch a b mp) (c :: cs) ⊤ c.1 alpha beta

/-- The timer check shared by `minimax` and `alphabeta`:
`if self.time_left() < self.TIMER_THRESHOLD: raise Timeout()`.
The counter `n` says how many timer queries have been made so far;
`tl n` is what the `n`-th call of `time_left()` returns. -/
def checkTimer (tl : Nat → ℚ) (thr : ℚ) (n : Nat) : Except Err Nat :=
  if tl n < thr then .error .timeout else .ok (n + 1)

/-- Timed maximizing-layer loop of `CustomPlayer.minimax`, threading the
timer-query counter through the recursive calls. -/
def mmMaxLoopT (f : Game → Bool → Nat → Except Err ((Score × Move) × Nat)) :
    List (Move × Game) → Score → Move → Nat → Except Err ((Score × Move) × Nat)
  | [], best, bm, n => .ok ((best, bm), n)
  | (mv, ch) :: rest, best, bm, n =>
    match f ch false n with
    | .error e => .error e
    | .ok ((s, _), n') =>
      if best < s then mmMaxLoopT f rest s mv n' else mmMaxLoopT f rest best bm n'

/-- Timed minimizing-layer loop of `CustomPlayer.minimax`. -/
def mmMinLoopT (f : Game → Bool → Nat → Except Err ((Score × Move) × Nat)) :
    List (Move × Game) → Score → Move → Nat → Except Err ((Score × Move) × Nat)
  | [], best, bm, n => .ok ((best, bm), n)
  | (mv, ch) :: rest, best, bm, n =>
    match f ch true n with
    | .error e => .error e
    | .ok ((s, _), n') =>
      if s < best then mmMinLoopT f rest s mv n' else mmMinLoopT f rest best bm n'

/-- `CustomPlayer.minimax` with the timer modelled: every invocation
first runs the `time_left() < TIMER_THRESHOLD` check (raising
`Timeout`), then the `depth == 0 or game.utility(self) != 0` base case,
then `best_move = game.get_legal_moves()[0]` (an `IndexError` when the
list is empty) and the max/min loop. -/
def minimaxT (ev : Game → Score) (tl : Nat → ℚ) (thr : ℚ) :
    Nat → Game → Bool → Nat → Except Err ((Score × Move) × Nat)
  | 0, g, _, n =>
    match checkTimer tl thr n with
    | .error e => .error e
    | .ok n' => .ok ((ev g, g.lastInactive), n')
  | d + 1, g, maximizing_player, n =>
    match checkTimer tl thr n with
    | .error e => .error e
    | .ok n' =>
      if g.util ≠ Score.ofQ 0 then .ok ((ev g, g.lastInactive), n')
      else
        match g.children with
        | [] => .error .indexError
        | c :: cs =>
          if maximizing_player then
            mmMaxLoopT (fun ch mp k => minimaxT ev tl thr d ch mp k) (c :: cs) ⊥ c.1 n'
          else
            mmMinLoopT (fun ch mp k => minimaxT ev tl thr d ch mp k) (c :: cs) ⊤ c.1 n'

/-- Timed maximizing-layer loop of `CustomPlayer.alphabeta`. -/
def abMaxLoopT (f : Game → Score → Score → Bool → Nat → Except Err ((Score × Move) × Nat)) :
    List (Move × Game) → Score → Move → Score → Score → Nat →
      Except Err ((Score × Move) × Nat)
  | [], best, bm, _, _, n => .ok ((best, bm), n)
  | (mv, ch) :: rest, best, bm, alpha, beta, n =>
    match f ch alpha beta false n with
    | .error e => .error e
    | .ok ((s, _), n') =>
      let best' := if best < s then s else best
      let bm' := if best < s then mv else bm
      if beta ≤ best' then .ok ((best', bm'), n')
      else abMaxLoopT f rest best' bm' (max alpha best') beta n'

/-- Timed minimizing-layer loop of `CustomPlayer.alphabeta`. -/
def abMinLoopT (f : Game → Score → Score → Bool → Nat → Except Err ((Score × Move) × Nat)) :
    List (Move × Game) → Score → Move → Score → Score → Nat →
      Except Err ((Score × Move) × Nat)
  | [], best, bm, _, _, n => .ok ((best, bm), n)
  | (mv, ch) :: rest, best, bm, alpha, beta, n =>
    match f ch alpha beta true n with
    | .error e => .error e
    | .ok ((s, _), n') =>
      let best' := if s < best then s else best
      let bm' := if s < best then mv else bm
      if best' ≤ alpha then .ok ((best', bm'), n')
      else abMinLoopT f rest best' bm' alpha (min beta best') n'

/-- `CustomPlayer.alphabeta` with the timer modelled, exactly parallel
to `minimaxT`. -/
def alphabetaT (ev : Game → Score) (tl : Nat → ℚ) (thr : ℚ) :
    Nat → Game → Score → Score → Bool → Nat → Except Err ((Score × Move) × Nat)
  | 0, g, _, _, _, n =>
    match checkTimer tl thr n with
    | .error e => .error e
    | .ok n' => .ok ((ev g, g.lastInactive), n')
  | d + 1, g, alpha, beta, maximizing_player, n =>
    match checkTimer tl thr n with
    | .error e => .error e
    | .ok n' =>
      if g.util ≠ Score.ofQ 0 then .ok ((ev g, g.lastInactive), n')
      else
        match g.children with
        | [] => .error .indexError
        | c :: cs =>
          if maximizing_player then
            abMaxLoopT (fun ch a b mp k => alphabetaT ev tl thr d ch a b mp k)
              (c :: cs) ⊥ c.1 alpha beta n'
          else
            abMinLoopT (fun ch a b mp k => alphabetaT ev tl thr d ch a b mp k)
              (c :: cs) ⊤ c.1 alpha beta n'

/-- The `self.method` configuration value: `'minimax'` or `'alphabeta'`. -/
inductive Method : Type where
  | minimax : Method
  | alphabeta : Method
deriving DecidableEq, Repr

/-- One search invocation as issued by `get_move`: `minimax(game, depth,
True)` or `alphabeta(game, depth, float("-inf"), float("inf"), True)`
according to `self.method`. -/
def runDepth (ev : Game → Score) (tl : Nat → ℚ) (thr : ℚ) (mth : Method)
    (g : Game) (d : Nat) (n : Nat) : Except Err ((Score × Move) × Nat) :=
  match mth with
  | .minimax => minimaxT ev tl thr d g true n
  | .alphabeta => alphabetaT ev tl thr d g ⊥ ⊤ true n

/-- `random.choice(l)` with the random draw made explicit as an index
seed `r`; on an empty sequence it raises `IndexError`. -/
def randomChoice (l : List Move) (r : Nat) : Except Err Move :=
  match l with
  | [] => .error .indexError
  | x :: xs => .ok ((x :: xs).get ⟨r % (x :: xs).length, Nat.mod_lt _ (Nat.succ_pos _)⟩)

/-- The `while True` iterative-deepening loop of `get_move`, starting at
depth `d` with current `best_move = best`: run the configured method at
depth `d`; on success adopt the returned move and go to depth `d + 1`;
on `Timeout` the enclosing `except Timeout` returns the current
`best_move`; an `IndexError` is not caught and escapes.  `fuel` bounds
how many rounds we unfold the (otherwise non-terminating) loop; `none`
means the loop was still running. -/
def iterLoop (ev : Game → Score) (tl : Nat → ℚ) (thr : ℚ) (mth : Method)
    (g : Game) : Nat → Nat → Move → Nat → Option (Except Err Move)
  | 0, _, _, _ => none
  | fuel + 1, d, best, n =>
    match runDepth ev tl thr mth g d n with
    | .ok ((_, m), n') => iterLoop ev tl thr mth g fuel (d + 1) m n'
    | .error .timeout => some (.ok best)
    | .error .indexError => some (.error .indexError)

/-- Run the depths `d, d + 1, ..., d + j - 1` in sequence the way the
iterative-deepening loop does, returning the move adopted from the last
of them (or the initial `best` when `j = 0`) together with the final
timer-query counter.  Used to phrase "the first `j` depths completed in
full". -/
def runDepths (ev : Game → Score) (tl : Nat → ℚ) (thr : ℚ) (mth : Method)
    (g : Game) : Nat → Nat → Move → Nat → Except Err (Move × Nat)
  | 0, _, best, n => .ok (best, n)
  | j + 1, d, best, n =>
    match runDepth ev tl thr mth g d n with
    | .ok ((_, m), n') => runDepths ev tl thr mth g j (d + 1) m n'
    | .error e => .error e

/-- `CustomPlayer.get_move`: return the sentinel `(-1, -1)` if the
supplied `legal_moves` is empty; otherwise draw the fallback
`best_move = random.choice(game.get_legal_moves())` and run either the
iterative-deepening loop or a single fixed-depth search, catching
`Timeout` (and only `Timeout`) by returning the current `best_move`.
The result `some (.ok m)` is a normal return of `m`, `some (.error e)`
an uncaught exception, and `none` a run still inside the
iterative-deepening loop after `fuel` rounds. -/
def get_moveT (ev : Game → Score) (tl : Nat → ℚ) (thr : ℚ) (search_depth : Nat)
    (iterative : Bool) (mth : Method) (fuel : Nat)
    (g : Game) (legal_moves : List Move) (r : Nat) : Option (Except Err Move) :=
  if legal_moves.length = 0 then some (.ok ((-1 : Int), (-1 : Int)))
  else
    match randomChoice g.legalMovesList r with
    | .error e => some (.error e)
    | .ok best =>
      if iterative then iterLoop ev tl thr mth g fuel 0 best 0
      else
        match runDepth ev tl thr mth g search_depth 0 with
        | .ok ((_, m), _) => some (.ok m)
        | .error .timeout => some (.ok best)
        | .error .indexError => some (.error .indexError)

/-- The two player identities of a game of isolation. -/
inductive Player : Type where
  | P1 : Player
  | P2 : Player
deriving DecidableEq, Repr

/-- `game.get_opponent(player)`: the opponent is a pure lookup. -/
def Player.opp : Player → Player
  | .P1 => .P2
  | .P2 => .P1

/-- The `isolation.Board` state as consumed by the three evaluation
functions: terminal tests, per-player legal-move lists, board extent,
player locations, and a finite table of the boards that
`game.forecast_move(move)` produces (only the moves actually forecast
by `deeper_score`, i.e. the legal moves, need be in the table). -/
inductive BState : Type where
  | mk (isLoserF isWinnerF : Player → Bool)
      (legalMovesF : Player → List Move)
      (width height : ℚ)
      (locationF : Player → Int × Int)
      (forecasts : List (Move × BState))

/-- `game.is_loser(player)`. -/
def BState.isLoser : BState → Player → Bool
  | .mk l _ _ _ _ _ _, p => l p

/-- `game.is_winner(player)`. -/
def BState.isWinner : BState → Player → Bool
  | .mk _ w _ _ _ _ _, p => w p

/-- `game.get_legal_moves(player)`. -/
def BState.legalMoves : BState → Player → List Move
  | .mk _ _ lm _ _ _ _, p => lm p

/-- `game.width`. -/
def BState.width : BState → ℚ
  | .mk _ _ _ w _ _ _ => w

/-- `game.height`. -/
def BState.height : BState → ℚ
  | .mk _ _ _ _ h _ _ => h

/-- `game.get_player_location(player)`. -/
def BState.location : BState → Player → Int × Int
  | .mk _ _ _ _ _ loc _, p => loc p

/-- `game.forecast_move(move)`, read off the finite forecast table. -/
def BState.forecast : BState → Move → BState
  | g@(.mk _ _ _ _ _ _ fc), m => ((fc.lookup m).getD g)

/-- `attacking_score`: `-inf` for a loser, `+inf` for a winner, else
minus the number of the opponent's open moves. -/
def attacking_score (game : BState) (player : Player) : Score :=
  if game.isLoser player then ⊥
  else if game.isWinner player then ⊤
  else Score.ofQ (-((game.legalMoves player.opp).length : ℚ))

/-- `deeper_score`: `-inf` for a loser, `+inf` for a winner, else the
sum over the player's legal moves of (own mobility after the move minus
opponent mobility after the move). -/
def deeper_score (game : BState) (player : Player) : Score :=
  if game.isLoser player then ⊥
  else if game.isWinner player then ⊤
  else
    Score.ofQ
      ((game.legalMoves player).foldl
        (fun sc move =>
          sc + (((game.forecast move).legalMoves player).length : ℚ)
            - (((game.forecast move).legalMoves player.opp).length : ℚ))
        0)

/-- `custom_score`: `-inf` for a loser, `+inf` for a winner, else the
mobility difference with a center-bias penalty; note the source pairs
the row coordinate with `game.width/2` and the column with
`game.height/2`. -/
def custom_score (game : BState) (player : Player) : Score :=
  if game.isLoser player then ⊥
  else if game.isWinner player then ⊤
  else
    let score : ℚ :=
      ((game.legalMoves player).length : ℚ)
        - ((game.legalMoves player.opp).length : ℚ)
    let center_x := game.width / 2
    let center_y := game.height / 2
    let row := (game.location player).1
    let col := (game.location player).2
    Score.ofQ (score - |(row : ℚ) - center_x| * (1 / 10) - |(col : ℚ) - center_y| * (1 / 10))

/-- Decidable equality for `Except` results, so that concrete runs of
the embedded code can be checked by `decide`. -/
instance {ε α : Type} [DecidableEq ε] [DecidableEq α] : DecidableEq (Except ε α)
  | .ok a, .ok b =>
    if h : a = b then .isTrue (by rw [h]) else .isFalse (by intro hc; cases hc; exact h rfl)
  | .ok _, .error _ => .isFalse (by intro hc; cases hc)
  | .error _, .ok _ => .isFalse (by intro hc; cases hc)
  | .error e, .error e' =>
    if h : e = e' then .isTrue (by rw [h]) else .isFalse (by intro hc; cases hc; exact h rfl)

/-- Well-formedness of a game tree down to depth `d`, the data-model
invariant of the board collaborator: utility is non-zero exactly at
terminal states, so an ongoing (utility-zero) state always has at least
one legal move.  This is what rules out the `IndexError` path of the
search on boards the spec admits. -/
def WFd : Nat → Game → Prop
  | 0, _ => True
  | d + 1, g =>
    g.util = Score.ofQ 0 → (g.children ≠ [] ∧ ∀ c ∈ g.children, WFd d c.2)

/-- Boolean computation of `WFd`, for deciding it on concrete trees. -/
def wfdB : Nat → Game → Bool
  | 0, _ => true
  | d + 1, g =>
    if g.util = Score.ofQ 0 then
      !g.children.isEmpty && g.children.all fun c => wfdB d c.2
    else true

/-- `wfdB` decides `WFd`. -/
def wfd_iff : ∀ (d : Nat) (g : Game), WFd d g ↔ wfdB d g = true
  | 0, _ => by simp [WFd, wfdB]
  | d + 1, g => by
    have ih : ∀ c : Move × Game, WFd d c.2 ↔ wfdB d c.2 = true :=
      fun c => wfd_iff d c.2
    unfold WFd wfdB
    by_cases hu : g.util = Score.ofQ 0
    · simp only [hu, if_true, forall_const, Bool.and_eq_true, List.all_eq_true]
      constructor
      · rintro ⟨h1, h2⟩
        exact ⟨by simpa [List.isEmpty_iff] using h1, fun c hc => (ih c).mp (h2 c hc)⟩
      · rintro ⟨h1, h2⟩
        exact ⟨by simpa [List.isEmpty_iff] using h1, fun c hc => (ih c).mpr (h2 c hc)⟩
    · simp [hu]

instance (d : Nat) (g : Game) : Decidable (WFd d g) :=
  decidable_of_iff _ (wfd_iff d g).symm

/-- The weighted center-mobility heuristic exactly as the claim words
it: the row coordinate is measured against `height/2` and the column
against `width/2`.  Stated only to compare with the source's
`custom_score`, which pairs the row with `width/2` and the column with
`height/2`. -/
def custom_score_claim (game : BState) (player : Player) : Score :=
  if game.isLoser player then ⊥
  else if game.isWinner player then ⊤
  else
    let score : ℚ :=
      ((game.legalMoves player).length : ℚ)
        - ((game.legalMoves player.opp).length : ℚ)
    let row := (game.location player).1
    let col := (game.location player).2
    Score.ofQ (score - |(row : ℚ) - game.height / 2| * (1 / 10)
      - |(col : ℚ) - game.width / 2| * (1 / 10))

/-- A constant evaluator, used for concrete runs. -/
def evalZero : Game → Score := fun _ => Score.ofQ 0

/-- Concrete terminal board positions used in the sample runs below. -/
def leafA : Game := .node (Score.ofQ 1) ((2 : Int), (2 : Int)) []

def leafB : Game := .node (Score.ofQ 1) ((3 : Int), (3 : Int)) []

/-- An ongoing position with two legal moves `(2,2)` and `(3,3)` whose
inactive player's recorded last move is `(5,5)`. -/
def gTwo : Game :=
  .node (Score.ofQ 0) ((5 : Int), (5 : Int))
    [(((2 : Int), (2 : Int)), leafA), (((3 : Int), (3 : Int)), leafB)]

/-- An ongoing position with the single legal move `(2,2)` whose
inactive player's recorded last move is `(7,7)`. -/
def gOne : Game :=
  .node (Score.ofQ 0) ((7 : Int), (7 : Int)) [(((2 : Int), (2 : Int)), leafA)]

/-- A time function whose first reading is comfortable and whose later
readings are exhausted: the search completes depth 0 (one timer query)
and times out entering depth 1. -/
def tlOne : Nat → ℚ := fun n => if n = 0 then 100 else 0

/-- A time function allowing exactly three comfortable readings. -/
def tlThree : Nat → ℚ := fun n => if n ≤ 2 then 100 else 0

/-- A time function that is already exhausted at the first reading. -/
def tlNone : Nat → ℚ := fun _ => 0

/-- A time function that never runs out. -/
def tlInf : Nat → ℚ := fun _ => 100

/-- A terminal position reached by the move `(1,1)`. -/
def leafT : Game := .node (Score.ofQ 3) ((1 : Int), (1 : Int)) []

/-- An ongoing position whose only legal move `(1,1)` leads to a
terminal position; every search depth of at least 1 costs exactly two
timer queries on it. -/
def gChain : Game :=
  .node (Score.ofQ 0) ((9 : Int), (9 : Int)) [(((1 : Int), (1 : Int)), leafT)]

/-- A depth-2 well-formed game tree on which minimax and alpha-beta can
be compared concretely (picking move `(0,0)` with value 2). -/
def gCmp : Game :=
  .node (Score.ofQ 0) ((8 : Int), (8 : Int))
    [(((0 : Int), (0 : Int)),
        .node (Score.ofQ 0) ((0 : Int), (0 : Int))
          [(((1 : Int), (0 : Int)), .node (Score.ofQ 2) ((1 : Int), (0 : Int)) []),
           (((1 : Int), (1 : Int)), .node (Score.ofQ 5) ((1 : Int), (1 : Int)) [])]),
     (((0 : Int), (1 : Int)),
        .node (Score.ofQ 0) ((0 : Int), (1 : Int))
          [(((2 : Int), (0 : Int)), .node (Score.ofQ 7) ((2 : Int), (0 : Int)) []),
           (((2 : Int), (1 : Int)), .node (Score.ofQ 1) ((2 : Int), (1 : Int)) [])])]

/-- A board where player 1 has been enclosed: player 1 has lost and has
no moves, player 2 has won. -/
def bTerm : BState :=
  .mk (fun p => match p with | .P1 => true | .P2 => false)
    (fun p => match p with | .P1 => false | .P2 => true)
    (fun p => match p with | .P1 => [] | .P2 => [((0 : Int), (1 : Int))])
    3 3 (fun _ => ((0 : Int), (0 : Int))) []

/-- A non-square, non-terminal board (width 4, height 2) with the
evaluated player standing on `(1, 2)`; it separates `custom_score` from
the claim's wording of it. -/
def bRect : BState :=
  .mk (fun _ => false) (fun _ => false)
    (fun _ => [((0 : Int), (0 : Int))])
    4 2 (fun _ => ((1 : Int), (2 : Int))) []

/-- Any error produced by `randomChoice` is the `IndexError` of
`random.choice` on an empty sequence. -/
theorem randomChoice_error (l : List Move) (r : Nat) (e : Err)
    (h : randomChoice l r = .error e) : e = .indexError := by
  cases l with
  | nil =>
    simp only [randomChoice] at h
    exact (Except.error.inj h).symm
  | cons x xs => simp [randomChoice] at h

/-- The iterative-deepening loop never surfaces a `Timeout`: it catches
it and returns the current best move. -/
theorem iterLoop_ne_timeout (ev : Game → Score) (tl : Nat → ℚ) (thr : ℚ)
    (mth : Method) (g : Game) :
    ∀ (fuel d : Nat) (best : Move) (n : Nat),
      iterLoop ev tl thr mth g fuel d best n ≠ some (.error .timeout) := by
  intro fuel
  induction fuel with
  | zero => intro d best n; simp [iterLoop]
  | succ f ih =>
    intro d best n
    unfold iterLoop
    cases h : runDepth ev tl thr mth g d n with
    | ok p => exact ih (d + 1) p.1.2 p.2
    | error e => cases e <;> simp

/-- If the first `j` depths of the iterative-deepening loop complete
(ending with adopted move `m` and timer counter `n'`) and the next
depth raises `Timeout`, the loop returns `m`. -/
theorem iterLoop_of_chain (ev : Game → Score) (tl : Nat → ℚ) (thr : ℚ)
    (mth : Method) (g : Game) :
    ∀ (j d : Nat) (best : Move) (n fuel : Nat) (m : Move) (n' : Nat),
      runDepths ev tl thr mth g j d best n = .ok (m, n') →
      runDepth ev tl thr mth g (d + j) n' = .error .timeout →
      j < fuel →
      iterLoop ev tl thr mth g fuel d best n = some (.ok m) := by
  intro j
  induction j with
  | zero =>
    intro d best n fuel m n' hchain htime hfuel
    cases fuel with
    | zero => exact absurd hfuel (by omega)
    | succ f =>
      simp only [runDepths, Except.ok.injEq, Prod.mk.injEq] at hchain
      obtain ⟨hm, hn⟩ := hchain
      subst hm; subst hn
      simp only [Nat.add_zero] at htime
      simp [iterLoop, htime]
  | succ j ih =>
    intro d best n fuel m n' hchain htime hfuel
    cases fuel with
    | zero => exact absurd hfuel (by omega)
    | succ f =>
      unfold runDepths at hchain
      cases hrd : runDepth ev tl thr mth g d n with
      | error e => rw [hrd] at hchain; exact absurd hchain (by simp)
      | ok p =>
        obtain ⟨⟨s, mv⟩, n1⟩ := p
        rw [hrd] at hchain
        have htime' : runDepth ev tl thr mth g (d + 1 + j) n' = .error .timeout := by
          have : d + 1 + j = d + (j + 1) := by omega
          rw [this]; exact htime
        have hrec := ih (d + 1) mv n1 f m n' hchain htime' (by omega)
        unfold iterLoop
        rw [hrd]
        exact hrec

/-- Claim C3: with iterative deepening, when `Timeout` is raised while
searching at depth `d` after the depths `0, ..., d - 1` all completed
(`runDepths` records their sequence of adopted best moves, ending in
`m`), `get_move` returns `m`, the move adopted from the deepest fully
completed depth — for `d = 0` this is the pre-search fallback `b0`;
nothing produced by the aborted depth-`d` search is surfaced. -/
theorem c3_last_completed_depth (ev : Game → Score) (tl : Nat → ℚ) (thr : ℚ)
    (sd : Nat) (mth : Method) (fuel : Nat) (g : Game) (x : Move) (xs : List Move)
    (r : Nat) (b0 m : Move) (d n' : Nat)
    (hfall : randomChoice g.legalMovesList r = .ok b0)
    (hchain : runDepths ev tl thr mth g d 0 b0 0 = .ok (m, n'))
    (htime : runDepth ev tl thr mth g d n' = .error .timeout)
    (hfuel : d < fuel) :
    get_moveT ev tl thr sd true mth fuel g (x :: xs) r = some (.ok m) := by
  unfold get_moveT
  rw [if_neg (by simp)]
  rw [hfall]
  simp only [if_pos]
  exact iterLoop_of_chain ev tl thr mth g d 0 b0 0 fuel m n' hchain
    (by simpa using htime) hfuel

/-- Concrete run for C3: on `gChain` with `tlThree`, depths 0 and 1
complete (adopting `(1,1)` at depth 1) and depth 2 raises `Timeout`;
`get_move` returns `(1,1)`. -/
theorem c3_last_completed_depth_witness :
    get_moveT evalZero tlThree 10 3 true .minimax 4 gChain
      [((1 : Int), (1 : Int))] 0 = some (.ok ((1 : Int), (1 : Int))) :=
  c3_last_completed_depth evalZero tlThree 10 3 .minimax 4 gChain
    ((1 : Int), (1 : Int)) [] 0 ((1 : Int), (1 : Int)) ((1 : Int), (1 : Int)) 2 3
    (by decide) (by decide) (by decide) (by decide)

/-- Claim C4: the timer discipline.  `checkTimer` raises `Timeout`
exactly when `time_left() < TIMER_THRESHOLD`; both search methods run
it first at every invocation, before the base case and before any
child expansion, so an under-threshold reading raises at once; the
raised `Timeout` is never surfaced by `get_move` (it is caught there),
and in fixed-depth mode a caught `Timeout` resolves to the pre-search
fallback move. -/
theorem c4_timeout_discipline :
    (∀ (tl : Nat → ℚ) (thr : ℚ) (n : Nat),
      checkTimer tl thr n = .error .timeout ↔ tl n < thr)
    ∧ (∀ (ev : Game → Score) (tl : Nat → ℚ) (thr : ℚ) (d : Nat) (g : Game)
        (mp : Bool) (n : Nat), tl n < thr →
        minimaxT ev tl thr d g mp n = .error .timeout)
    ∧ (∀ (ev : Game → Score) (tl : Nat → ℚ) (thr : ℚ) (d : Nat) (g : Game)
        (al be : Score) (mp : Bool) (n : Nat), tl n < thr →
        alphabetaT ev tl thr d g al be mp n = .error .timeout)
    ∧ (∀ (ev : Game → Score) (tl : Nat → ℚ) (thr : ℚ) (sd : Nat) (iter : Bool)
        (mth : Method) (fuel : Nat) (g : Game) (lm : List Move) (r : Nat),
        get_moveT ev tl thr sd iter mth fuel g lm r ≠ some (.error .timeout))
    ∧ (∀ (ev : Game → Score) (tl : Nat → ℚ) (thr : ℚ) (sd : Nat) (mth : Method)
        (g : Game) (x : Move) (xs : List Move) (r : Nat) (b0 : Move),
        randomChoice g.legalMovesList r = .ok b0 →
        runDepth ev tl thr mth g sd 0 = .error .timeout →
        get_moveT ev tl thr sd false mth 0 g (x :: xs) r = some (.ok b0)) := by
  refine ⟨?_, ?_, ?_, ?_, ?_⟩
  · intro tl thr n
    by_cases h : tl n < thr <;> simp [checkTimer, h]
  · intro ev tl thr d g mp n h
    cases d <;> simp [minimaxT, checkTimer, h]
  · intro ev tl thr d g al be mp n h
    cases d <;> simp [alphabetaT, checkTimer, h]
  · intro ev tl thr sd iter mth fuel g lm r
    unfold get_moveT
    by_cases hl : lm.length = 0
    · simp [hl]
    · rw [if_neg hl]
      cases hrc : randomChoice g.legalMovesList r with
      | error e =>
        have he := randomChoice_error _ _ _ hrc
        subst he
        simp
      | ok b =>
        cases iter with
        | true =>
          simp only [if_pos]
          exact iterLoop_ne_timeout ev tl thr mth g fuel 0 b 0
        | false =>
          simp only [if_neg]
          cases hrd : runDepth ev tl thr mth g sd 0 with
          | ok p => simp
          | error e => cases e <;> simp
  · intro ev tl thr sd mth g x xs r b0 hfall htime
    unfold get_moveT
    rw [if_neg (by simp)]
    rw [hfall]
    simp [htime]

/-- Concrete instances for C4: an exhausted timer makes both methods
raise `Timeout` at once; `get_move` never surfaces a `Timeout`; and in
fixed-depth mode the caught `Timeout` yields the fallback move. -/
theorem c4_timeout_discipline_witness :
    checkTimer tlNone 10 0 = .error .timeout
    ∧ minimaxT evalZero tlNone 10 2 gTwo true 0 = .error .timeout
    ∧ alphabetaT evalZero tlNone 10 2 gTwo ⊥ ⊤ true 0 = .error .timeout
    ∧ get_moveT evalZero tlOne 10 3 true .minimax 3 gTwo
        [((2 : Int), (2 : Int))] 0 ≠ some (.error .timeout)
    ∧ get_moveT evalZero tlNone 10 3 false .minimax 0 gTwo
        [((2 : Int), (2 : Int))] 0 = some (.ok ((2 : Int), (2 : Int))) :=
  ⟨(c4_timeout_discipline.1 tlNone 10 0).mpr (by decide),
   c4_timeout_discipline.2.1 evalZero tlNone 10 2 gTwo true 0 (by decide),
   c4_timeout_discipline.2.2.1 evalZero tlNone 10 2 gTwo ⊥ ⊤ true 0 (by decide),
   c4_timeout_discipline.2.2.2.1 evalZero tlOne 10 3 true .minimax 3 gTwo
     [((2 : Int), (2 : Int))] 0,
   c4_timeout_discipline.2.2.2.2 evalZero tlNone 10 3 .minimax gTwo
     ((2 : Int), (2 : Int)) [] 0 ((2 : Int), (2 : Int)) (by decide) (by decide)⟩

/-- Claim C5: with sufficient time remaining, `minimax(state, 0, m)`
returns the evaluator's score of the state together with the inactive
player's recorded last move, and consumes exactly one timer query (no
child is expanded); the same pair is returned at any depth when the
state's utility for the searching agent is non-zero, and `alphabeta`
behaves identically at its base case. -/
theorem c5_base_case (ev : Game → Score) (tl : Nat → ℚ) (thr : ℚ) (g : Game)
    (mp : Bool) (n : Nat) (h : ¬ tl n < thr) :
    minimaxT ev tl thr 0 g mp n = .ok ((ev g, g.lastInactive), n + 1)
    ∧ (∀ d, g.util ≠ Score.ofQ 0 →
        minimaxT ev tl thr d g mp n = .ok ((ev g, g.lastInactive), n + 1))
    ∧ (∀ al be, alphabetaT ev tl thr 0 g al be mp n = .ok ((ev g, g.lastInactive), n + 1))
    ∧ (∀ d al be, g.util ≠ Score.ofQ 0 →
        alphabetaT ev tl thr d g al be mp n = .ok ((ev g, g.lastInactive), n + 1)) := by
  refine ⟨?_, ?_, ?_, ?_⟩
  · simp [minimaxT, checkTimer, h]
  · intro d hu
    cases d with
    | zero => simp [minimaxT, checkTimer, h]
    | succ d => simp [minimaxT, checkTimer, h, hu]
  · intro al be
    simp [alphabetaT, checkTimer, h]
  · intro d al be hu
    cases d with
    | zero => simp [alphabetaT, checkTimer, h]
    | succ d => simp [alphabetaT, checkTimer, h, hu]

/-- Concrete instance for C5 on the terminal position `leafA`. -/
theorem c5_base_case_witness :
    minimaxT evalZero tlInf 10 0 leafA true 0
      = .ok ((evalZero leafA, leafA.lastInactive), 1)
    ∧ minimaxT evalZero tlInf 10 5 leafA true 0
      = .ok ((evalZero leafA, leafA.lastInactive), 1)
    ∧ alphabetaT evalZero tlInf 10 0 leafA ⊥ ⊤ true 0
      = .ok ((evalZero leafA, leafA.lastInactive), 1)
    ∧ alphabetaT evalZero tlInf 10 5 leafA ⊥ ⊤ true 0
      = .ok ((evalZero leafA, leafA.lastInactive), 1) := by
  have h := c5_base_case evalZero tlInf 10 leafA true 0 (by decide)
  exact ⟨h.1, h.2.1 5 (by decide), h.2.2.1 ⊥ ⊤, h.2.2.2 5 ⊥ ⊤ (by decide)⟩

/-- Claim C6: each of the three evaluators checks terminal states
first — on a board where the player has lost it returns `-inf`, and
where the player has won it returns `+inf`, before any heuristic
computation; the hypothesis that the player has not both won and lost
is the board collaborator's own invariant. -/
theorem c6_terminal_scores (g : BState) (p : Player)
    (h : ¬(g.isLoser p = true ∧ g.isWinner p = true)) :
    (g.isLoser p = true →
      attacking_score g p = ⊥ ∧ deeper_score g p = ⊥ ∧ custom_score g p = ⊥)
    ∧ (g.isWinner p = true →
      attacking_score g p = ⊤ ∧ deeper_score g p = ⊤ ∧ custom_score g p = ⊤) := by
  constructor
  · intro hl
    simp [attacking_score, deeper_score, custom_score, hl]
  · intro hw
    have hl : g.isLoser p = false := by
      cases hlo : g.isLoser p
      · rfl
      · exact absurd ⟨hlo, hw⟩ h
    simp [attacking_score, deeper_score, custom_score, hl, hw]

/-- Concrete instance for C6 on the enclosed 3x3 board `bTerm`. -/
theorem c6_terminal_scores_witness :
    (attacking_score bTerm .P1 = ⊥ ∧ deeper_score bTerm .P1 = ⊥
      ∧ custom_score bTerm .P1 = ⊥)
    ∧ (attacking_score bTerm .P2 = ⊤ ∧ deeper_score bTerm .P2 = ⊤
      ∧ custom_score bTerm .P2 = ⊤) :=
  ⟨(c6_terminal_scores bTerm .P1 (by decide)).1 (by decide),
   (c6_terminal_scores bTerm .P2 (by decide)).2 (by decide)⟩

/-- Claim C8: an empty `legal_moves` argument makes `get_move` return
the sentinel `(-1, -1)` at once, for every configuration, evaluator,
time function and fuel — in particular no search and no timer query is
performed and no exception is raised. -/
theorem c8_empty_sentinel (ev : Game → Score) (tl : Nat → ℚ) (thr : ℚ)
    (sd : Nat) (iter : Bool) (mth : Method) (fuel : Nat) (g : Game) (r : Nat) :
    get_moveT ev tl thr sd iter mth fuel g [] r = some (.ok ((-1 : Int), (-1 : Int))) := rfl

/-- Claim C10: `get_move` tests emptiness on its `legal_moves` argument
but draws the fallback from `game.get_legal_moves()`; when the argument
is non-empty while the game reports no legal moves, `random.choice`
raises an uncaught `IndexError` instead of returning a move. -/
theorem c10_mismatched_sources (ev : Game → Score) (tl : Nat → ℚ) (thr : ℚ)
    (sd : Nat) (iter : Bool) (mth : Method) (fuel : Nat) (u : Score) (lm : Move)
    (x : Move) (xs : List Move) (r : Nat) :
    get_moveT ev tl thr sd iter mth fuel (.node u lm []) (x :: xs) r
      = some (.error .indexError) := by
  unfold get_moveT
  rw [if_neg (by simp)]
  rfl

/-- Claim C1 fails on the code: on `gTwo` with `legal_moves =
[(2,2), (3,3)]`, a time budget that lets depth 0 of the iterative
deepening complete and then expires makes `get_move` return `(5,5)` —
the inactive player's recorded last move surfaced by the depth-0 base
case — which is not in `legal_moves` (and is not the sentinel), contrary
to the claim and to `get_move`'s own docstring. -/
theorem c1_illegal_move_returned :
    get_moveT evalZero tlOne 10 3 true .minimax 3 gTwo
        [((2 : Int), (2 : Int)), ((3 : Int), (3 : Int))] 0
      = some (.ok ((5 : Int), (5 : Int)))
    ∧ ((5 : Int), (5 : Int)) ∉ [((2 : Int), (2 : Int)), ((3 : Int), (3 : Int))] := by
  decide

/-- Claim C9 fails on the code for the same reason as C1: on `gOne`
with the single legal move `(2,2)`, the same timing makes `get_move`
return `(7,7)`, the inactive player's recorded last move, instead of
the unique entry of `legal_moves`. -/
theorem c9_single_entry_not_returned :
    get_moveT evalZero tlOne 10 3 true .alphabeta 3 gOne
        [((2 : Int), (2 : Int))] 0 = some (.ok ((7 : Int), (7 : Int)))
    ∧ ((7 : Int), (7 : Int)) ≠ ((2 : Int), (2 : Int)) := by
  decide

/-- Claim C7 as worded fails on the code: on the non-square board
`bRect` the source's `custom_score` (which measures the row against
`width/2` and the column against `height/2`) differs from the claim's
formula (row against `height/2`, column against `width/2`). -/
theorem c7_center_penalty_counterexample :
    custom_score bRect .P1 ≠ custom_score_claim bRect .P1 := by
  norm_num [custom_score, custom_score_claim, bRect, BState.isLoser, BState.isWinner,
    BState.legalMoves, BState.location, BState.width, BState.height, Score.ofQ,
    Player.opp, WithBot.coe_eq_coe, WithTop.coe_eq_coe]

/-- Claim C7, amended to the pairing the code performs: for every
non-terminal state and player, `custom_score` is the player's
legal-move count minus the opponent's, minus `0.1 * |row - width/2|`
and minus `0.1 * |col - height/2|`. -/
theorem c7_center_penalty (g : BState) (p : Player)
    (hl : g.isLoser p = false) (hw : g.isWinner p = false) :
    custom_score g p =
      Score.ofQ (((g.legalMoves p).length : ℚ) - ((g.legalMoves p.opp).length : ℚ)
        - |(((g.location p).1 : ℚ)) - g.width / 2| * (1 / 10)
        - |(((g.location p).2 : ℚ)) - g.height / 2| * (1 / 10)) := by
  simp [custom_score, hl, hw]

/-- Concrete instance of the amended C7 on the board `bRect`. -/
theorem c7_center_penalty_witness :
    custom_score bRect .P1 =
      Score.ofQ (((bRect.legalMoves .P1).length : ℚ)
        - ((bRect.legalMoves (Player.opp .P1)).length : ℚ)
        - |(((bRect.location .P1).1 : ℚ)) - bRect.width / 2| * (1 / 10)
        - |(((bRect.location .P1).2 : ℚ)) - bRect.height / 2| * (1 / 10)) :=
  c7_center_penalty bRect .P1 rfl rfl

/-- If every recursive call on the remaining children succeeds, the
maximizing minimax loop succeeds, and its result is at least the
running best. -/
theorem mmMaxLoop_some (f : Game → Bool → Option (Score × Move)) :
    ∀ (rest : List (Move × Game)) (b : Score) (bm : Move),
      (∀ c ∈ rest, ∃ p, f c.2 false = some p) →
      ∃ v bm', mmMaxLoop f rest b bm = some (v, bm') ∧ b ≤ v := by
  intro rest
  induction rest with
  | nil => intro b bm _; exact ⟨b, bm, rfl, le_refl b⟩
  | cons c rest ih =>
    intro b bm hsome
    obtain ⟨mv, ch⟩ := c
    obtain ⟨p, hp⟩ := hsome (mv, ch) (List.mem_cons_self _ _)
    obtain ⟨s, m0⟩ := p
    have hrest : ∀ c ∈ rest, ∃ p, f c.2 false = some p :=
      fun c hc => hsome c (List.mem_cons_of_mem _ hc)
    by_cases hlt : b < s
    · obtain ⟨v, bm', hv, hle⟩ := ih s mv hrest
      exact ⟨v, bm', by simp [mmMaxLoop, hp, hlt, hv], le_trans (le_of_lt hlt) hle⟩
    · obtain ⟨v, bm', hv, hle⟩ := ih b bm hrest
      exact ⟨v, bm', by simp [mmMaxLoop, hp, hlt, hv], hle⟩

/-- Once the running best of the maximizing minimax loop is `+inf`, no
child can strictly beat it, so the loop keeps its current pair. -/
theorem mmMaxLoop_top (f : Game → Bool → Option (Score × Move)) :
    ∀ (rest : List (Move × Game)) (bm : Move),
      (∀ c ∈ rest, ∃ p, f c.2 false = some p) →
      mmMaxLoop f rest ⊤ bm = some (⊤, bm) := by
  intro rest
  induction rest with
  | nil => intro bm _; rfl
  | cons c rest ih =>
    intro bm hsome
    obtain ⟨mv, ch⟩ := c
    obtain ⟨⟨s, m0⟩, hp⟩ := hsome (mv, ch) (List.mem_cons_self _ _)
    have hnlt : ¬ (⊤ : Score) < s := not_lt_of_le le_top
    simp only [mmMaxLoop, hp, if_neg hnlt]
    exact ih bm fun c hc => hsome c (List.mem_cons_of_mem _ hc)

/-- Fail-soft invariant of the maximizing alpha-beta loop against the
maximizing minimax loop over the same children: provided each child
pair satisfies the fail-soft contract on every window, the loop results
`v` (minimax) and `r` (alpha-beta) satisfy it too — `r` is exact
strictly inside the window `(al, be)`, an upper bound on `v` when it
fails low, and a lower bound when it fails high.  The running states
are related by `bM ≤ bA ≤ max al bM`. -/
theorem abMaxLoop_failsoft (fMM : Game → Bool → Option (Score × Move))
    (fAB : Game → Score → Score → Bool → Option (Score × Move))
    (al be : Score) (hab : al < be) :
    ∀ (rest : List (Move × Game)),
      (∀ c ∈ rest, ∀ a b : Score, a < b →
        ∃ v bm r rm, fMM c.2 false = some (v, bm) ∧ fAB c.2 a b false = some (r, rm) ∧
          (r ≤ a → v ≤ r) ∧ (b ≤ r → r ≤ v) ∧ (a < r → r < b → r = v)) →
      ∀ (bM bA : Score) (bmM bmA : Move),
        bA < be → bM ≤ bA → bA ≤ max al bM →
        ∃ v bm r rm, mmMaxLoop fMM rest bM bmM = some (v, bm) ∧
          abMaxLoop fAB rest bA bmA (max al bA) be = some (r, rm) ∧
          (r ≤ al → v ≤ r) ∧ (be ≤ r → r ≤ v) ∧ (al < r → r < be → r = v) := by
  intro rest
  induction rest with
  | nil =>
    intro _ bM bA bmM bmA hAbe hMA hAM
    refine ⟨bM, bmM, bA, bmA, rfl, rfl, fun _ => hMA,
      fun h => absurd h (not_le_of_lt hAbe), fun h1 _ => ?_⟩
    rcases le_total bM al with h2 | h2
    · have : bA ≤ al := by
        have := hAM
        rwa [max_eq_left h2] at this
      exact absurd h1 (not_lt_of_le this)
    · have : bA ≤ bM := by
        have := hAM
        rwa [max_eq_right h2] at this
      exact le_antisymm this hMA
  | cons c rest ih =>
    intro hfs bM bA bmM bmA hAbe hMA hAM
    obtain ⟨mv, ch⟩ := c
    have hwin : max al bA < be := max_lt hab hAbe
    obtain ⟨vc, bmc, rc, rmc, hMMc, hABc, B1, B2, B3⟩ :=
      hfs (mv, ch) (List.mem_cons_self _ _) (max al bA) be hwin
    have hfs' : ∀ c ∈ rest, ∀ a b : Score, a < b →
        ∃ v bm r rm, fMM c.2 false = some (v, bm) ∧ fAB c.2 a b false = some (r, rm) ∧
          (r ≤ a → v ≤ r) ∧ (b ≤ r → r ≤ v) ∧ (a < r → r < b → r = v) :=
      fun c hc => hfs c (List.mem_cons_of_mem _ hc)
    have hsome' : ∀ c ∈ rest, ∃ p, fMM c.2 false = some p := by
      intro c hc
      obtain ⟨v, bm, r, rm, h1, _⟩ := hfs' c hc ⊥ ⊤ bot_lt_top
      exact ⟨(v, bm), h1⟩
    have hmstep : mmMaxLoop fMM ((mv, ch) :: rest) bM bmM
        = mmMaxLoop fMM rest (if bM < vc then vc else bM) (if bM < vc then mv else bmM) := by
      by_cases h : bM < vc <;> simp [mmMaxLoop, hMMc, h]
    have hvc_le_bM' : vc ≤ (if bM < vc then vc else bM) := by
      by_cases h : bM < vc <;> simp [h]
      exact le_of_not_lt h
    have hbM_le_bM' : bM ≤ (if bM < vc then vc else bM) := by
      by_cases h : bM < vc <;> simp [h]
      exact le_of_lt h
    by_cases hbr : bA < rc
    · -- the alpha-beta loop adopts rc
      by_cases hcut : be ≤ rc
      · -- beta cutoff: alpha-beta returns (rc, mv) at once
        have hrv : rc ≤ vc := B2 hcut
        have habst : abMaxLoop fAB ((mv, ch) :: rest) bA bmA (max al bA) be
            = some (rc, mv) := by
          simp [abMaxLoop, hABc, hbr, hcut]
        have hupd : bM < vc := lt_of_le_of_lt hMA (lt_of_lt_of_le hbr hrv)
        obtain ⟨v, bm', hmm, hle⟩ := mmMaxLoop_some fMM rest vc mv hsome'
        refine ⟨v, bm', rc, mv, ?_, habst,
          fun h => absurd (lt_of_lt_of_le (lt_of_lt_of_le hab hcut) h) (lt_irrefl al),
          fun _ => le_trans hrv hle,
          fun _ h2 => absurd (lt_of_lt_of_le h2 hcut) (lt_irrefl rc)⟩
        rw [hmstep, if_pos hupd, if_pos hupd]
        exact hmm
      · -- no cutoff: continue with best = rc
        have hrc_be : rc < be := not_le.mp hcut
        have hvc_rc : vc ≤ rc := by
          rcases le_or_lt rc (max al bA) with h1 | h2
          · exact B1 h1
          · exact le_of_eq (B3 h2 hrc_be).symm
        have habst : abMaxLoop fAB ((mv, ch) :: rest) bA bmA (max al bA) be
            = abMaxLoop fAB rest rc mv (max al rc) be := by
          have hmax : max (max al bA) rc = max al rc := by
            rw [max_assoc, max_eq_right (le_of_lt hbr)]
          simp [abMaxLoop, hABc, hbr, hcut, hmax]
        have hMA' : (if bM < vc then vc else bM) ≤ rc := by
          by_cases h : bM < vc
          · simp [h]; exact hvc_rc
          · simp [h]; exact le_trans hMA (le_of_lt hbr)
        have hAM' : rc ≤ max al (if bM < vc then vc else bM) := by
          rcases le_or_lt rc (max al bA) with h1 | h2
          · rcases le_total bA al with h3 | h3
            · have : rc ≤ al := by rwa [max_eq_left h3] at h1
              exact le_trans this (le_max_left _ _)
            · have : rc ≤ bA := by rwa [max_eq_right h3] at h1
              exact absurd hbr (not_lt_of_le this)
          · have : rc = vc := B3 h2 hrc_be
            exact le_trans (le_of_eq this) (le_trans hvc_le_bM' (le_max_right _ _))
        obtain ⟨v, bm, r, rm, hmm, hab', hc1, hc2, hc3⟩ :=
          ih hfs' (if bM < vc then vc else bM) rc
            (if bM < vc then mv else bmM) mv hrc_be hMA' hAM'
        exact ⟨v, bm, r, rm, by rw [hmstep]; exact hmm, by rw [habst]; exact hab',
          hc1, hc2, hc3⟩
    · -- the alpha-beta loop keeps bA
      have hrc_bA : rc ≤ bA := le_of_not_lt hbr
      have hvc_rc : vc ≤ rc := B1 (le_trans hrc_bA (le_max_right _ _))
      have habst : abMaxLoop fAB ((mv, ch) :: rest) bA bmA (max al bA) be
          = abMaxLoop fAB rest bA bmA (max al bA) be := by
        have hmax : max (max al bA) bA = max al bA :=
          max_eq_left (le_max_right _ _)
        simp [abMaxLoop, hABc, hbr, not_le_of_lt hAbe, hmax]
      have hMA' : (if bM < vc then vc else bM) ≤ bA := by
        by_cases h : bM < vc
        · simp [h]; exact le_trans hvc_rc hrc_bA
        · simp [h]; exact hMA
      have hAM' : bA ≤ max al (if bM < vc then vc else bM) :=
        le_trans hAM (max_le_max (le_refl al) hbM_le_bM')
      obtain ⟨v, bm, r, rm, hmm, hab', hc1, hc2, hc3⟩ :=
        ih hfs' (if bM < vc then vc else bM) bA
          (if bM < vc then mv else bmM) bmA hAbe hMA' hAM'
      exact ⟨v, bm, r, rm, by rw [hmstep]; exact hmm, by rw [habst]; exact hab',
        hc1, hc2, hc3⟩

/-- If every recursive call on the remaining children succeeds, the
minimizing minimax loop succeeds, and its result is at most the
running best. -/
theorem mmMinLoop_some (f : Game → Bool → Option (Score × Move)) :
    ∀ (rest : List (Move × Game)) (b : Score) (bm : Move),
      (∀ c ∈ rest, ∃ p, f c.2 true = some p) →
      ∃ v bm', mmMinLoop f rest b bm = some (v, bm') ∧ v ≤ b := by
  intro rest
  induction rest with
  | nil => intro b bm _; exact ⟨b, bm, rfl, le_refl b⟩
  | cons c rest ih =>
    intro b bm hsome
    obtain ⟨mv, ch⟩ := c
    obtain ⟨⟨s, m0⟩, hp⟩ := hsome (mv, ch) (List.mem_cons_self _ _)
    have hrest : ∀ c ∈ rest, ∃ p, f c.2 true = some p :=
      fun c hc => hsome c (List.mem_cons_of_mem _ hc)
    by_cases hlt : s < b
    · obtain ⟨v, bm', hv, hle⟩ := ih s mv hrest
      exact ⟨v, bm', by simp [mmMinLoop, hp, hlt, hv], le_trans hle (le_of_lt hlt)⟩
    · obtain ⟨v, bm', hv, hle⟩ := ih b bm hrest
      exact ⟨v, bm', by simp [mmMinLoop, hp, hlt, hv], hle⟩

/-- Once the running best of the minimizing minimax loop is `-inf`, no
child can strictly undercut it, so the loop keeps its current pair. -/
theorem mmMinLoop_bot (f : Game → Bool → Option (Score × Move)) :
    ∀ (rest : List (Move × Game)) (bm : Move),
      (∀ c ∈ rest, ∃ p, f c.2 true = some p) →
      mmMinLoop f rest ⊥ bm = some (⊥, bm) := by
  intro rest
  induction rest with
  | nil => intro bm _; rfl
  | cons c rest ih =>
    intro bm hsome
    obtain ⟨mv, ch⟩ := c
    obtain ⟨⟨s, m0⟩, hp⟩ := hsome (mv, ch) (List.mem_cons_self _ _)
    have hnlt : ¬ s < (⊥ : Score) := not_lt_of_le bot_le
    simp only [mmMinLoop, hp, if_neg hnlt]
    exact ih bm fun c hc => hsome c (List.mem_cons_of_mem _ hc)

/-- Fail-soft invariant of the minimizing alpha-beta loop, the exact
order-dual of `abMaxLoop_failsoft`. -/
theorem abMinLoop_failsoft (fMM : Game → Bool → Option (Score × Move))
    (fAB : Game → Score → Score → Bool → Option (Score × Move))
    (al be : Score) (hab : al < be) :
    ∀ (rest : List (Move × Game)),
      (∀ c ∈ rest, ∀ a b : Score, a < b →
        ∃ v bm r rm, fMM c.2 true = some (v, bm) ∧ fAB c.2 a b true = some (r, rm) ∧
          (r ≤ a → v ≤ r) ∧ (b ≤ r → r ≤ v) ∧ (a < r → r < b → r = v)) →
      ∀ (bM bA : Score) (bmM bmA : Move),
        al < bA → bA ≤ bM → min be bM ≤ bA →
        ∃ v bm r rm, mmMinLoop fMM rest bM bmM = some (v, bm) ∧
          abMinLoop fAB rest bA bmA al (min be bA) = some (r, rm) ∧
          (r ≤ al → v ≤ r) ∧ (be ≤ r → r ≤ v) ∧ (al < r → r < be → r = v) := by
  intro rest
  induction rest with
  | nil =>
    intro _ bM bA bmM bmA hAal hMA hAM
    refine ⟨bM, bmM, bA, bmA, rfl, rfl, fun h => absurd h (not_le_of_lt hAal),
      fun _ => hMA, fun _ h2 => ?_⟩
    rcases le_total be bM with h3 | h3
    · have : be ≤ bA := by
        have := hAM
        rwa [min_eq_left h3] at this
      exact absurd h2 (not_lt_of_le this)
    · have : bM ≤ bA := by
        have := hAM
        rwa [min_eq_right h3] at this
      exact le_antisymm this hMA |>.symm
  | cons c rest ih =>
    intro hfs bM bA bmM bmA hAal hMA hAM
    obtain ⟨mv, ch⟩ := c
    have hwin : al < min be bA := lt_min hab hAal
    obtain ⟨vc, bmc, rc, rmc, hMMc, hABc, B1, B2, B3⟩ :=
      hfs (mv, ch) (List.mem_cons_self _ _) al (min be bA) hwin
    have hfs' : ∀ c ∈ rest, ∀ a b : Score, a < b →
        ∃ v bm r rm, fMM c.2 true = some (v, bm) ∧ fAB c.2 a b true = some (r, rm) ∧
          (r ≤ a → v ≤ r) ∧ (b ≤ r → r ≤ v) ∧ (a < r → r < b → r = v) :=
      fun c hc => hfs c (List.mem_cons_of_mem _ hc)
    have hsome' : ∀ c ∈ rest, ∃ p, fMM c.2 true = some p := by
      intro c hc
      obtain ⟨v, bm, r, rm, h1, _⟩ := hfs' c hc ⊥ ⊤ bot_lt_top
      exact ⟨(v, bm), h1⟩
    have hmstep : mmMinLoop fMM ((mv, ch) :: rest) bM bmM
        = mmMinLoop fMM rest (if vc < bM then vc else bM) (if vc < bM then mv else bmM) := by
      by_cases h : vc < bM <;> simp [mmMinLoop, hMMc, h]
    have hbM'_le_vc : (if vc < bM then vc else bM) ≤ vc := by
      by_cases h : vc < bM <;> simp [h]
      exact le_of_not_lt h
    have hbM'_le_bM : (if vc < bM then vc else bM) ≤ bM := by
      by_cases h : vc < bM <;> simp [h]
      exact le_of_lt h
    by_cases hbr : rc < bA
    · -- the alpha-beta loop adopts rc
      by_cases hcut : rc ≤ al
      · -- alpha cutoff: alpha-beta returns (rc, mv) at once
        have hvr : vc ≤ rc := B1 hcut
        have habst : abMinLoop fAB ((mv, ch) :: rest) bA bmA al (min be bA)
            = some (rc, mv) := by
          simp [abMinLoop, hABc, hbr, hcut]
        have hupd : vc < bM := lt_of_le_of_lt hvr (lt_of_le_of_lt hcut (lt_of_lt_of_le hAal hMA))
        obtain ⟨v, bm', hmm, hle⟩ := mmMinLoop_some fMM rest vc mv hsome'
        refine ⟨v, bm', rc, mv, ?_, habst,
          fun _ => le_trans hle hvr,
          fun h => absurd (lt_of_le_of_lt (le_trans h hcut) hab) (lt_irrefl be),
          fun h1 _ => absurd (lt_of_lt_of_le h1 hcut) (lt_irrefl al)⟩
        rw [hmstep, if_pos hupd, if_pos hupd]
        exact hmm
      · -- no cutoff: continue with best = rc
        have hal_rc : al < rc := not_le.mp hcut
        have hrc_vc : rc ≤ vc := by
          rcases le_or_lt (min be bA) rc with h1 | h2
          · exact B2 h1
          · exact le_of_eq (B3 hal_rc h2)
        have habst : abMinLoop fAB ((mv, ch) :: rest) bA bmA al (min be bA)
            = abMinLoop fAB rest rc mv al (min be rc) := by
          have hmin : min (min be bA) rc = min be rc := by
            rw [min_assoc, min_eq_right (le_of_lt hbr)]
          simp [abMinLoop, hABc, hbr, hcut, hmin]
        have hMA' : rc ≤ (if vc < bM then vc else bM) := by
          by_cases h : vc < bM
          · simp [h]; exact hrc_vc
          · simp [h]; exact le_trans (le_of_lt hbr) hMA
        have hAM' : min be (if vc < bM then vc else bM) ≤ rc := by
          rcases le_or_lt (min be bA) rc with h1 | h2
          · rcases le_total be bA with h3 | h3
            · have : be ≤ rc := by rwa [min_eq_left h3] at h1
              exact le_trans (min_le_left _ _) this
            · have : bA ≤ rc := by rwa [min_eq_right h3] at h1
              exact absurd hbr (not_lt_of_le this)
          · have : rc = vc := B3 hal_rc h2
            exact le_trans (min_le_right _ _) (le_trans hbM'_le_vc (le_of_eq this.symm))
        obtain ⟨v, bm, r, rm, hmm, hab', hc1, hc2, hc3⟩ :=
          ih hfs' (if vc < bM then vc else bM) rc
            (if vc < bM then mv else bmM) mv hal_rc hMA' hAM'
        exact ⟨v, bm, r, rm, by rw [hmstep]; exact hmm, by rw [habst]; exact hab',
          hc1, hc2, hc3⟩
    · -- the alpha-beta loop keeps bA
      have hbA_rc : bA ≤ rc := le_of_not_lt hbr
      have hrc_vc : rc ≤ vc := B2 (le_trans (min_le_right _ _) hbA_rc)
      have habst : abMinLoop fAB ((mv, ch) :: rest) bA bmA al (min be bA)
          = abMinLoop fAB rest bA bmA al (min be bA) := by
        have hmin : min (min be bA) bA = min be bA :=
          min_eq_left (min_le_right _ _)
        simp [abMinLoop, hABc, hbr, not_le_of_lt hAal, hmin]
      have hMA' : bA ≤ (if vc < bM then vc else bM) := by
        by_cases h : vc < bM
        · simp [h]; exact le_trans hbA_rc hrc_vc
        · simp [h]; exact hMA
      have hAM' : min be (if vc < bM then vc else bM) ≤ bA :=
        le_trans (min_le_min (le_refl be) hbM'_le_bM) hAM
      obtain ⟨v, bm, r, rm, hmm, hab', hc1, hc2, hc3⟩ :=
        ih hfs' (if vc < bM then vc else bM) bA
          (if vc < bM then mv else bmM) bmA hAal hMA' hAM'
      exact ⟨v, bm, r, rm, by rw [hmstep]; exact hmm, by rw [habst]; exact hab',
        hc1, hc2, hc3⟩

/-- Node-level fail-soft theorem, by induction on the search depth: on
a well-formed game both searches succeed, and on any window
`(al, be)` the alpha-beta score is exact inside the window and a
sound bound outside it, relative to the minimax score. -/
theorem minimax_alphabeta_failsoft (ev : Game → Score) :
    ∀ (d : Nat) (g : Game), WFd d g → ∀ (mp : Bool) (al be : Score), al < be →
      ∃ v bm r rm, minimax ev d g mp = some (v, bm) ∧
        alphabeta ev d g al be mp = some (r, rm) ∧
        (r ≤ al → v ≤ r) ∧ (be ≤ r → r ≤ v) ∧ (al < r → r < be → r = v) := by
  intro d
  induction d with
  | zero =>
    intro g _ mp al be _
    exact ⟨ev g, g.lastInactive, ev g, g.lastInactive, rfl, rfl,
      fun _ => le_refl _, fun _ => le_refl _, fun _ _ => rfl⟩
  | succ d ih =>
    intro g hwf mp al be hab
    by_cases hu : g.util = Score.ofQ 0
    · obtain ⟨hne, hwfc⟩ := hwf hu
      cases hc : g.children with
      | nil => exact absurd hc hne
      | cons c cs =>
        have hfsT : ∀ c' ∈ c :: cs, ∀ a b : Score, a < b →
            ∃ v bm r rm, (fun ch mp => minimax ev d ch mp) c'.2 false = some (v, bm) ∧
              (fun ch a b mp => alphabeta ev d ch a b mp) c'.2 a b false = some (r, rm) ∧
              (r ≤ a → v ≤ r) ∧ (b ≤ r → r ≤ v) ∧ (a < r → r < b → r = v) := by
          intro c' hc' a b hab'
          exact ih c'.2 (hwfc c' (hc ▸ hc')) false a b hab'
        have hfsF : ∀ c' ∈ c :: cs, ∀ a b : Score, a < b →
            ∃ v bm r rm, (fun ch mp => minimax ev d ch mp) c'.2 true = some (v, bm) ∧
              (fun ch a b mp => alphabeta ev d ch a b mp) c'.2 a b true = some (r, rm) ∧
              (r ≤ a → v ≤ r) ∧ (b ≤ r → r ≤ v) ∧ (a < r → r < b → r = v) := by
          intro c' hc' a b hab'
          exact ih c'.2 (hwfc c' (hc ▸ hc')) true a b hab'
        cases mp with
        | true =>
          obtain ⟨v, bm, r, rm, h1, h2, h3, h4, h5⟩ :=
            abMaxLoop_failsoft (fun ch mp => minimax ev d ch mp)
              (fun ch a b mp => alphabeta ev d ch a b mp) al be hab (c :: cs) hfsT
              ⊥ ⊥ c.1 c.1 (lt_of_le_of_lt bot_le hab) (le_refl _) bot_le
          rw [max_eq_left (bot_le : (⊥ : Score) ≤ al)] at h2
          refine ⟨v, bm, r, rm, ?_, ?_, h3, h4, h5⟩
          · simpa [minimax, hu, hc] using h1
          · simpa [alphabeta, hu, hc] using h2
        | false =>
          obtain ⟨v, bm, r, rm, h1, h2, h3, h4, h5⟩ :=
            abMinLoop_failsoft (fun ch mp => minimax ev d ch mp)
              (fun ch a b mp => alphabeta ev d ch a b mp) al be hab (c :: cs) hfsF
              ⊤ ⊤ c.1 c.1 (lt_of_lt_of_le hab le_top) (le_refl _) le_top
          rw [min_eq_left (le_top : be ≤ (⊤ : Score))] at h2
          refine ⟨v, bm, r, rm, ?_, ?_, h3, h4, h5⟩
          · simpa [minimax, hu, hc] using h1
          · simpa [alphabeta, hu, hc] using h2
    · refine ⟨ev g, g.lastInactive, ev g, g.lastInactive, ?_, ?_,
        fun _ => le_refl _, fun _ => le_refl _, fun _ _ => rfl⟩
      · simp [minimax, hu]
      · simp [alphabeta, hu]

/-- At the root window `(-inf, +inf)` the maximizing alpha-beta loop
agrees with the maximizing minimax loop exactly, score and move alike;
the loop's alpha always equals its running best there. -/
theorem abMaxLoop_root (fMM : Game → Bool → Option (Score × Move))
    (fAB : Game → Score → Score → Bool → Option (Score × Move)) :
    ∀ (rest : List (Move × Game)),
      (∀ c ∈ rest, ∀ a b : Score, a < b →
        ∃ v bm r rm, fMM c.2 false = some (v, bm) ∧ fAB c.2 a b false = some (r, rm) ∧
          (r ≤ a → v ≤ r) ∧ (b ≤ r → r ≤ v) ∧ (a < r → r < b → r = v)) →
      ∀ (b : Score) (bm : Move), b < ⊤ →
        abMaxLoop fAB rest b bm b ⊤ = mmMaxLoop fMM rest b bm := by
  intro rest
  induction rest with
  | nil => intro _ b bm _; rfl
  | cons c rest ih =>
    intro hfs b bm hb
    obtain ⟨mv, ch⟩ := c
    obtain ⟨vc, bmc, rc, rmc, hMMc, hABc, B1, B2, B3⟩ :=
      hfs (mv, ch) (List.mem_cons_self _ _) b ⊤ hb
    have hfs' : ∀ c ∈ rest, ∀ a b : Score, a < b →
        ∃ v bm r rm, fMM c.2 false = some (v, bm) ∧ fAB c.2 a b false = some (r, rm) ∧
          (r ≤ a → v ≤ r) ∧ (b ≤ r → r ≤ v) ∧ (a < r → r < b → r = v) :=
      fun c hc => hfs c (List.mem_cons_of_mem _ hc)
    have hsome' : ∀ c ∈ rest, ∃ p, fMM c.2 false = some p := by
      intro c hc
      obtain ⟨v, bm', r, rm, h1, _⟩ := hfs' c hc ⊥ ⊤ bot_lt_top
      exact ⟨(v, bm'), h1⟩
    by_cases hbr : b < rc
    · by_cases hrt : rc < ⊤
      · have hex : rc = vc := B3 hbr hrt
        have hvb : b < vc := hex ▸ hbr
        have hmax : max b rc = rc := max_eq_right (le_of_lt hbr)
        calc abMaxLoop fAB ((mv, ch) :: rest) b bm b ⊤
            = abMaxLoop fAB rest rc mv rc ⊤ := by
              simp [abMaxLoop, hABc, hbr, not_le_of_lt hrt, hmax]
          _ = mmMaxLoop fMM rest rc mv := ih hfs' rc mv hrt
          _ = mmMaxLoop fMM ((mv, ch) :: rest) b bm := by
              simp [mmMaxLoop, hMMc, hvb, hex]
      · have hrc : rc = ⊤ := top_unique (not_lt.mp hrt)
        have hvc : vc = ⊤ := top_unique (le_trans (not_lt.mp hrt) (B2 (not_lt.mp hrt)))
        have hvb : b < vc := hvc ▸ hb
        calc abMaxLoop fAB ((mv, ch) :: rest) b bm b ⊤
            = some (rc, mv) := by
              simp [abMaxLoop, hABc, hbr, hrc, hb.ne]
          _ = mmMaxLoop fMM ((mv, ch) :: rest) b bm := by
              rw [hrc]
              have : mmMaxLoop fMM ((mv, ch) :: rest) b bm
                  = mmMaxLoop fMM rest vc mv := by
                simp [mmMaxLoop, hMMc, hvb]
              rw [this, hvc, mmMaxLoop_top fMM rest mv hsome']
    · have hrb : rc ≤ b := le_of_not_lt hbr
      have hvc : vc ≤ rc := B1 hrb
      have hnvb : ¬ b < vc := not_lt_of_le (le_trans hvc hrb)
      calc abMaxLoop fAB ((mv, ch) :: rest) b bm b ⊤
          = abMaxLoop fAB rest b bm b ⊤ := by
            simp [abMaxLoop, hABc, hbr, not_le_of_lt hb, max_self]
        _ = mmMaxLoop fMM rest b bm := ih hfs' b bm hb
        _ = mmMaxLoop fMM ((mv, ch) :: rest) b bm := by
            simp [mmMaxLoop, hMMc, hnvb]

/-- At the root window `(-inf, +inf)` the minimizing alpha-beta loop
agrees with the minimizing minimax loop exactly; its beta always
equals its running best there. -/
theorem abMinLoop_root (fMM : Game → Bool → Option (Score × Move))
    (fAB : Game → Score → Score → Bool → Option (Score × Move)) :
    ∀ (rest : List (Move × Game)),
      (∀ c ∈ rest, ∀ a b : Score, a < b →
        ∃ v bm r rm, fMM c.2 true = some (v, bm) ∧ fAB c.2 a b true = some (r, rm) ∧
          (r ≤ a → v ≤ r) ∧ (b ≤ r → r ≤ v) ∧ (a < r → r < b → r = v)) →
      ∀ (b : Score) (bm : Move), ⊥ < b →
        abMinLoop fAB rest b bm ⊥ b = mmMinLoop fMM rest b bm := by
  intro rest
  induction rest with
  | nil => intro _ b bm _; rfl
  | cons c rest ih =>
    intro hfs b bm hb
    obtain ⟨mv, ch⟩ := c
    obtain ⟨vc, bmc, rc, rmc, hMMc, hABc, B1, B2, B3⟩ :=
      hfs (mv, ch) (List.mem_cons_self _ _) ⊥ b hb
    have hfs' : ∀ c ∈ rest, ∀ a b : Score, a < b →
        ∃ v bm r rm, fMM c.2 true = some (v, bm) ∧ fAB c.2 a b true = some (r, rm) ∧
          (r ≤ a → v ≤ r) ∧ (b ≤ r → r ≤ v) ∧ (a < r → r < b → r = v) :=
      fun c hc => hfs c (List.mem_cons_of_mem _ hc)
    have hsome' : ∀ c ∈ rest, ∃ p, fMM c.2 true = some p := by
      intro c hc
      obtain ⟨v, bm', r, rm, h1, _⟩ := hfs' c hc ⊥ ⊤ bot_lt_top
      exact ⟨(v, bm'), h1⟩
    by_cases hbr : rc < b
    · by_cases hrb : ⊥ < rc
      · have hex : rc = vc := B3 hrb hbr
        have hvb : vc < b := hex ▸ hbr
        have hmin : min b rc = rc := min_eq_right (le_of_lt hbr)
        calc abMinLoop fAB ((mv, ch) :: rest) b bm ⊥ b
            = abMinLoop fAB rest rc mv ⊥ rc := by
              simp [abMinLoop, hABc, hbr, not_le_of_lt hrb, hmin]
          _ = mmMinLoop fMM rest rc mv := ih hfs' rc mv hrb
          _ = mmMinLoop fMM ((mv, ch) :: rest) b bm := by
              simp [mmMinLoop, hMMc, hvb, hex]
      · have hrc : rc = ⊥ := bot_unique (not_lt.mp hrb)
        have hvc : vc = ⊥ := bot_unique (le_trans (B1 (not_lt.mp hrb)) (not_lt.mp hrb))
        have hvb : vc < b := hvc ▸ hb
        calc abMinLoop fAB ((mv, ch) :: rest) b bm ⊥ b
            = some (rc, mv) := by
              simp [abMinLoop, hABc, hbr, hrc, hb.ne']
          _ = mmMinLoop fMM ((mv, ch) :: rest) b bm := by
              rw [hrc]
              have : mmMinLoop fMM ((mv, ch) :: rest) b bm
                  = mmMinLoop fMM rest vc mv := by
                simp [mmMinLoop, hMMc, hvb]
              rw [this, hvc, mmMinLoop_bot fMM rest mv hsome']
    · have hrb : b ≤ rc := le_of_not_lt hbr
      have hvc : rc ≤ vc := B2 hrb
      have hnvb : ¬ vc < b := not_lt_of_le (le_trans hrb hvc)
      calc abMinLoop fAB ((mv, ch) :: rest) b bm ⊥ b
          = abMinLoop fAB rest b bm ⊥ b := by
            simp [abMinLoop, hABc, hbr, not_le_of_lt hb, min_self]
        _ = mmMinLoop fMM rest b bm := ih hfs' b bm hb
        _ = mmMinLoop fMM ((mv, ch) :: rest) b bm := by
            simp [mmMinLoop, hMMc, hnvb]

/-- Claim C2: for every well-formed game state, every depth, every
evaluator and either layer polarity, `alphabeta` called on the full
window `(-inf, +inf)` returns exactly the same `(score, move)` pair as
`minimax` at the same depth; pruning changes only the nodes visited,
never the result.  (Well-formedness `WFd` is the board data-model
invariant: a state of utility zero has at least one legal move.) -/
theorem c2_alphabeta_eq_minimax (ev : Game → Score) (d : Nat) (g : Game) (mp : Bool)
    (h : WFd d g) : alphabeta ev d g ⊥ ⊤ mp = minimax ev d g mp := by
  cases d with
  | zero => rfl
  | succ d =>
    by_cases hu : g.util = Score.ofQ 0
    · obtain ⟨hne, hwfc⟩ := h hu
      cases hc : g.children with
      | nil => exact absurd hc hne
      | cons c cs =>
        have hfsT : ∀ c' ∈ c :: cs, ∀ a b : Score, a < b →
            ∃ v bm r rm, (fun ch mp => minimax ev d ch mp) c'.2 false = some (v, bm) ∧
              (fun ch a b mp => alphabeta ev d ch a b mp) c'.2 a b false = some (r, rm) ∧
              (r ≤ a → v ≤ r) ∧ (b ≤ r → r ≤ v) ∧ (a < r → r < b → r = v) := by
          intro c' hc' a b hab'
          exact minimax_alphabeta_failsoft ev d c'.2 (hwfc c' (hc ▸ hc')) false a b hab'
        have hfsF : ∀ c' ∈ c :: cs, ∀ a b : Score, a < b →
            ∃ v bm r rm, (fun ch mp => minimax ev d ch mp) c'.2 true = some (v, bm) ∧
              (fun ch a b mp => alphabeta ev d ch a b mp) c'.2 a b true = some (r, rm) ∧
              (r ≤ a → v ≤ r) ∧ (b ≤ r → r ≤ v) ∧ (a < r → r < b → r = v) := by
          intro c' hc' a b hab'
          exact minimax_alphabeta_failsoft ev d c'.2 (hwfc c' (hc ▸ hc')) true a b hab'
        cases mp with
        | true =>
          have := abMaxLoop_root (fun ch mp => minimax ev d ch mp)
            (fun ch a b mp => alphabeta ev d ch a b mp) (c :: cs) hfsT ⊥ c.1 bot_lt_top
          simpa [alphabeta, minimax, hu, hc] using this
        | false =>
          have := abMinLoop_root (fun ch mp => minimax ev d ch mp)
            (fun ch a b mp => alphabeta ev d ch a b mp) (c :: cs) hfsF ⊤ c.1 bot_lt_top
          simpa [alphabeta, minimax, hu, hc] using this
    · simp [alphabeta, minimax, hu]

/-- Concrete instance of C2 on the depth-2 tree `gCmp` with the board
utility as evaluator. -/
theorem c2_alphabeta_eq_minimax_witness :
    alphabeta Game.util 2 gCmp ⊥ ⊤ true = minimax Game.util 2 gCmp true :=
  c2_alphabeta_eq_minimax Game.util 2 gCmp true (by decide)
